import Mathlib

/-!
Verification of `InvertSignal::processHeap` (src/audio/wasm/wasmnodes.cc).

A shallow embedding of the in-place reciprocal loop and of the memory it runs on.

* Linear memory is a finite list of `float` cells; cell `i` is the `float` that the pointer
  `reinterpret_cast<float*>(0) + i` designates.  `start_ptr` is given in these units and
  `++index` moves by one cell.
* The target is wasm32: a `float*` is a 32-bit byte address, so it designates one of
  `2 ^ 32 / sizeof(float) = 2 ^ 30` cells and pointer arithmetic wraps modulo `2 ^ 30` cells
  (`bufferStart`, `endPointer`).  Inside the loop `index` stays below `end`, so `++index` cannot
  wrap.  A linear memory whose cells and one-past-the-end position all have an address holds
  fewer than `2 ^ 30` cells; theorems about runs over a span inside memory state this bound.
* A dereference of a cell outside the list is the out-of-bounds branch: the run stops with
  `Except.error pos`, where `pos` is the offending cell.
* The sample arithmetic is a parameter: `1 / *index` is `1 / s` in any type with `One` and `Div`.
  No floating-point semantics is fixed; concrete runs use exact rationals.
* `channelSize * channel_count` multiplies an `int` by an `unsigned`, hence is computed in
  32-bit unsigned arithmetic: it is reduced modulo `2 ^ 32`.
* `loop` and `processHeap` follow the source line by line.  `loopTrace` is the same loop with a
  ghost log of the visited cells (`processHeapTrace_erase`: dropping the log gives `processHeap`),
  and `loopStep` / `loopFuel` run the same loop one iteration at a time (`loopFuel_eq_loop`).
-/

namespace InvertSignal

/-- The value of `sizeof(float)` on the wasm target. -/
def sizeofFloat : Nat := 4

/-- Source: `const int channelSize = 128 * sizeof(float);`. -/
def channelSize : Nat := 128 * sizeofFloat

/-- The modulus of `unsigned` arithmetic (32 bits). -/
def unsignedModulus : Nat := 2 ^ 32

/-- The operand `channelSize * channel_count` of the pointer addition, an `unsigned` product. -/
def endOffset (channel_count : Nat) : Nat :=
  (channelSize * channel_count) % unsignedModulus

/-- The number of `float` cells that a 32-bit byte address can designate. -/
def pointerModulus : Nat := 2 ^ 32 / sizeofFloat

/-- Source: `float* buffer_start = reinterpret_cast<float*>(start_ptr);`, the 32-bit pointer
value in cells. -/
def bufferStart (start_ptr : Nat) : Nat :=
  start_ptr % pointerModulus

/-- Source: `float* end = buffer_start + channelSize * channel_count;`, a sum of 32-bit
pointers. -/
def endPointer (buffer_start channel_count : Nat) : Nat :=
  (buffer_start + endOffset channel_count) % pointerModulus

/-- Source: `for (float* index = buffer_start; index < end; ++index) { *index = 1 / *index; }`,
started at the current value of `index`. -/
def loop {α : Type} [One α] [Div α] (endp : Nat) (index : Nat) (heap : List α) :
    Except Nat (List α) :=
  if index < endp then
    match heap[index]? with
    | some s => loop endp (index + 1) (heap.set index (1 / s))
    | none => Except.error index
  else
    Except.ok heap
termination_by endp - index

/-- Source: `void processHeap(uintptr_t start_ptr, unsigned channel_count)`, as a function of the
memory it runs on; the result is the memory after the call. -/
def processHeap {α : Type} [One α] [Div α] (heap : List α) (start_ptr : Nat)
    (channel_count : Nat) : Except Nat (List α) :=
  let buffer_start := bufferStart start_ptr
  let endp := endPointer buffer_start channel_count
  loop endp buffer_start heap

/-- The loop of `processHeap` with a ghost log: `visited` collects, in order, the cell that each
iteration reads and overwrites. -/
def loopTrace {α : Type} [One α] [Div α] (endp : Nat) (index : Nat) (heap : List α)
    (visited : List Nat) : Except Nat (List α × List Nat) :=
  if index < endp then
    match heap[index]? with
    | some s => loopTrace endp (index + 1) (heap.set index (1 / s)) (visited ++ [index])
    | none => Except.error index
  else
    Except.ok (heap, visited)
termination_by endp - index

/-- The call `processHeap` with the ghost log of the cells it reads and overwrites. -/
def processHeapTrace {α : Type} [One α] [Div α] (heap : List α) (start_ptr : Nat)
    (channel_count : Nat) : Except Nat (List α × List Nat) :=
  let buffer_start := bufferStart start_ptr
  let endp := endPointer buffer_start channel_count
  loopTrace endp buffer_start heap []

/-- State of the loop between two iterations: the pointer `index` and the memory. -/
structure LoopState (α : Type) where
  index : Nat
  heap : List α

/-- What one pass through the loop header and body does. -/
inductive StepResult (α : Type) where
  | next (s : LoopState α)
  | exit (heap : List α)
  | fault (pos : Nat)

/-- One iteration: the test `index < end`, the body `*index = 1 / *index`, then `++index`. -/
def loopStep {α : Type} [One α] [Div α] (endp : Nat) (s : LoopState α) : StepResult α :=
  if s.index < endp then
    match s.heap[s.index]? with
    | some v => StepResult.next ⟨s.index + 1, s.heap.set s.index (1 / v)⟩
    | none => StepResult.fault s.index
  else
    StepResult.exit s.heap

/-- The loop run for at most `fuel` passes through its header; `none` when the fuel runs out
before the loop has left. -/
def loopFuel {α : Type} [One α] [Div α] (endp : Nat) :
    Nat → LoopState α → Option (Except Nat (List α))
  | 0, _ => none
  | fuel + 1, s =>
    match loopStep endp s with
    | StepResult.next s' => loopFuel endp fuel s'
    | StepResult.exit heap => some (Except.ok heap)
    | StepResult.fault pos => some (Except.error pos)

/-- The memory `heap` with every cell of `[start, start + n)` replaced by its reciprocal. -/
def invertSpan {α : Type} [One α] [Div α] (heap : List α) (start n : Nat) : List α :=
  heap.take start ++ ((heap.drop start).take n).map (fun s => 1 / s) ++ heap.drop (start + n)

end InvertSignal

namespace InvertSignal

variable {α : Type} [One α] [Div α]

theorem channelSize_eq : channelSize = 512 := by decide

theorem length_invertSpan (heap : List α) (start n : Nat) :
    (invertSpan heap start n).length = heap.length := by
  simp only [invertSpan, List.length_append, List.length_take, List.length_map,
    List.length_drop]
  omega

theorem getElem?_invertSpan (heap : List α) (start n i : Nat) :
    (invertSpan heap start n)[i]? =
      if start ≤ i ∧ i < start + n then (heap[i]?).map (fun s => 1 / s) else heap[i]? := by
  by_cases hlen : heap.length ≤ i
  · rw [List.getElem?_eq_none (by rw [length_invertSpan]; exact hlen),
      List.getElem?_eq_none hlen]
    simp
  · have hi : i < heap.length := by omega
    unfold invertSpan
    rw [List.append_assoc]
    by_cases h1 : i < start
    · rw [if_neg (by omega), List.getElem?_append_left (by simp; omega),
        List.getElem?_take_of_lt h1]
    · have hs : start ≤ i := by omega
      have hmin : (List.take start heap).length = start := by simp; omega
      rw [List.getElem?_append_right (by omega), hmin]
      by_cases h2 : i < start + n
      · rw [if_pos ⟨hs, h2⟩, List.getElem?_append_left (by simp; omega), List.getElem?_map,
          List.getElem?_take_of_lt (by omega), List.getElem?_drop]
        congr 2; omega
      · have hlen2 : (List.map (fun s => 1 / s) (List.take n (List.drop start heap))).length = n := by
          simp; omega
        rw [if_neg (by omega), List.getElem?_append_right (by omega), hlen2,
          List.getElem?_drop]
        congr 1; omega

theorem invertSpan_zero (heap : List α) (start : Nat) : invertSpan heap start 0 = heap := by
  apply List.ext_getElem?
  intro i
  rw [getElem?_invertSpan, if_neg (by omega)]

theorem invertSpan_set_succ (heap : List α) (index n : Nat) (s : α)
    (hs : heap[index]? = some s) :
    invertSpan (heap.set index (1 / s)) (index + 1) n = invertSpan heap index (n + 1) := by
  have hlt : index < heap.length := by
    rcases Nat.lt_or_ge index heap.length with h | h
    · exact h
    · rw [List.getElem?_eq_none h] at hs; cases hs
  apply List.ext_getElem?
  intro i
  rw [getElem?_invertSpan, getElem?_invertSpan, List.getElem?_set]
  by_cases hi : index = i
  · subst hi
    rw [if_neg (by omega), if_pos rfl, if_pos hlt, if_pos (by omega), hs]
    rfl
  · rw [if_neg hi]
    by_cases h2 : index + 1 ≤ i ∧ i < index + 1 + n
    · rw [if_pos h2, if_pos (by omega)]
    · rw [if_neg h2, if_neg (by omega)]

theorem loop_ok (n : Nat) : ∀ (index : Nat) (heap : List α), index + n ≤ heap.length →
    loop (index + n) index heap = Except.ok (invertSpan heap index n) := by
  induction n with
  | zero =>
    intro index heap _
    rw [loop, if_neg (by omega), invertSpan_zero]
  | succ n ih =>
    intro index heap h
    have hlt : index < heap.length := by omega
    have hget : heap[index]? = some heap[index] := List.getElem?_eq_getElem hlt
    rw [loop, if_pos (by omega), hget]
    simp only []
    have hstep := ih (index + 1) (heap.set index (1 / heap[index]))
      (by rw [List.length_set]; omega)
    rw [show index + (n + 1) = index + 1 + n by omega, hstep, invertSpan_set_succ heap index n _ hget]

theorem loop_fault (n : Nat) : ∀ (index : Nat) (heap : List α), 0 < n →
    heap.length < index + n →
    loop (index + n) index heap = Except.error (max index heap.length) := by
  induction n with
  | zero => intro index heap h; omega
  | succ n ih =>
    intro index heap _ h
    rw [loop, if_pos (by omega)]
    by_cases hlt : index < heap.length
    · have hget : heap[index]? = some heap[index] := List.getElem?_eq_getElem hlt
      rw [hget]
      simp only []
      have hstep := ih (index + 1) (heap.set index (1 / heap[index])) (by omega)
        (by rw [List.length_set]; omega)
      rw [show index + (n + 1) = index + 1 + n by omega, hstep, List.length_set]
      congr 1
      omega
    · rw [List.getElem?_eq_none (by omega)]
      simp only []
      congr 1
      omega

theorem loopTrace_ok (n : Nat) : ∀ (index : Nat) (heap : List α) (visited : List Nat),
    index + n ≤ heap.length →
    loopTrace (index + n) index heap visited =
      Except.ok (invertSpan heap index n, visited ++ List.range' index n) := by
  induction n with
  | zero =>
    intro index heap visited _
    rw [loopTrace, if_neg (by omega), invertSpan_zero]
    simp
  | succ n ih =>
    intro index heap visited h
    have hlt : index < heap.length := by omega
    have hget : heap[index]? = some heap[index] := List.getElem?_eq_getElem hlt
    rw [loopTrace, if_pos (by omega), hget]
    simp only []
    have hstep := ih (index + 1) (heap.set index (1 / heap[index])) (visited ++ [index])
      (by rw [List.length_set]; omega)
    rw [show index + (n + 1) = index + 1 + n by omega, hstep,
      invertSpan_set_succ heap index n _ hget, List.range'_succ]
    simp

theorem loopTrace_erase (n : Nat) : ∀ (endp index : Nat) (heap : List α) (visited : List Nat),
    endp - index = n →
    Except.map Prod.fst (loopTrace endp index heap visited) = loop endp index heap := by
  induction n with
  | zero =>
    intro endp index heap visited h
    rw [loopTrace, loop, if_neg (by omega), if_neg (by omega)]
    rfl
  | succ n ih =>
    intro endp index heap visited h
    rw [loopTrace, loop, if_pos (by omega), if_pos (by omega)]
    cases hget : heap[index]? with
    | none => rfl
    | some s =>
      simp only []
      exact ih endp (index + 1) _ _ (by omega)

theorem processHeapTrace_erase (heap : List α) (start_ptr channel_count : Nat) :
    Except.map Prod.fst (processHeapTrace heap start_ptr channel_count) =
      processHeap heap start_ptr channel_count :=
  loopTrace_erase _ _ _ _ _ rfl

theorem loopFuel_eq_loop (n : Nat) : ∀ (endp fuel : Nat) (s : LoopState α),
    endp - s.index = n → n < fuel →
    loopFuel endp fuel s = some (loop endp s.index s.heap) := by
  induction n with
  | zero =>
    intro endp fuel s h hf
    obtain ⟨fuel, rfl⟩ : ∃ k, fuel = k + 1 := ⟨fuel - 1, by omega⟩
    rw [loopFuel, loopStep, loop, if_neg (by omega), if_neg (by omega)]
  | succ n ih =>
    intro endp fuel s h hf
    obtain ⟨fuel, rfl⟩ : ∃ k, fuel = k + 1 := ⟨fuel - 1, by omega⟩
    rw [loopFuel, loopStep, loop, if_pos (by omega), if_pos (by omega)]
    cases hget : s.heap[s.index]? with
    | none => rfl
    | some v =>
      simp only []
      exact ih endp fuel ⟨s.index + 1, s.heap.set s.index (1 / v)⟩ (by simp only []; omega)
        (by omega)

theorem loopFuel_short (fuel : Nat) : ∀ (endp : Nat) (s : LoopState α),
    s.index + fuel ≤ endp → endp ≤ s.heap.length → loopFuel endp fuel s = none := by
  induction fuel with
  | zero => intro endp s _ _; rfl
  | succ fuel ih =>
    intro endp s h hlen
    have hlt : s.index < s.heap.length := by omega
    have hget : s.heap[s.index]? = some s.heap[s.index] := List.getElem?_eq_getElem hlt
    rw [loopFuel, loopStep, if_pos (by omega), hget]
    simp only []
    exact ih endp _ (by simp only []; omega) (by simp only [List.length_set]; omega)

theorem loopStep_next (endp : Nat) (s s' : LoopState α)
    (h : loopStep endp s = StepResult.next s') :
    s.index < endp ∧ s'.index = s.index + 1 ∧ s'.heap.length = s.heap.length := by
  unfold loopStep at h
  split at h
  · rename_i hlt
    split at h
    · cases h
      exact ⟨hlt, rfl, by simp⟩
    · cases h
  · cases h

theorem loopStep_exit (endp : Nat) (s : LoopState α) (heap : List α)
    (h : loopStep endp s = StepResult.exit heap) : endp ≤ s.index ∧ heap = s.heap := by
  unfold loopStep at h
  split at h
  · split at h <;> cases h
  · cases h
    exact ⟨by omega, rfl⟩

theorem endOffset_eq (channel_count : Nat) (h : channel_count < 2 ^ 23) :
    endOffset channel_count = 512 * channel_count := by
  unfold endOffset channelSize sizeofFloat unsignedModulus
  omega

theorem endOffset_zero : endOffset 0 = 0 := by decide

theorem endOffset_one : endOffset 1 = 512 := by decide

theorem endOffset_two : endOffset 2 = 1024 := by decide

theorem endOffset_wrap : endOffset 8388608 = 0 := by decide

theorem endOffset_lt (channel_count : Nat) : endOffset channel_count < 2 ^ 32 :=
  Nat.mod_lt _ (by decide)

theorem invertSpan_append (pre mid post : List α) :
    invertSpan (pre ++ mid ++ post) pre.length mid.length =
      pre ++ mid.map (fun s => 1 / s) ++ post := by
  simp [invertSpan]

theorem pointerModulus_eq : pointerModulus = 2 ^ 30 := by decide

theorem bufferStart_eq (start_ptr : Nat) (h : start_ptr < 2 ^ 30) :
    bufferStart start_ptr = start_ptr := by
  unfold bufferStart
  rw [pointerModulus_eq]
  exact Nat.mod_eq_of_lt h

theorem endPointer_eq (buffer_start channel_count : Nat)
    (h : buffer_start + endOffset channel_count < 2 ^ 30) :
    endPointer buffer_start channel_count = buffer_start + endOffset channel_count := by
  unfold endPointer
  rw [pointerModulus_eq]
  exact Nat.mod_eq_of_lt h

theorem endPointer_sub_le (buffer_start channel_count : Nat) :
    endPointer buffer_start channel_count - buffer_start ≤ endOffset channel_count := by
  have h : endPointer buffer_start channel_count ≤ buffer_start + endOffset channel_count :=
    Nat.mod_le _ _
  omega

theorem endPointer_zero (start_ptr : Nat) :
    endPointer (bufferStart start_ptr) 0 = bufferStart start_ptr := by
  unfold endPointer bufferStart
  rw [endOffset_zero, Nat.add_zero, Nat.mod_mod]

theorem processHeap_ok (heap : List α) (start_ptr channel_count : Nat)
    (hptr : start_ptr + endOffset channel_count < 2 ^ 30)
    (h : start_ptr + endOffset channel_count ≤ heap.length) :
    processHeap heap start_ptr channel_count =
      Except.ok (invertSpan heap start_ptr (endOffset channel_count)) := by
  simp only [processHeap]
  rw [bufferStart_eq start_ptr (by omega), endPointer_eq start_ptr channel_count hptr]
  exact loop_ok _ _ _ h

theorem processHeap_fault (heap : List α) (start_ptr channel_count : Nat)
    (hpos : 0 < endOffset channel_count)
    (hptr : start_ptr + endOffset channel_count < 2 ^ 30)
    (h : heap.length < start_ptr + endOffset channel_count) :
    processHeap heap start_ptr channel_count = Except.error (max start_ptr heap.length) := by
  simp only [processHeap]
  rw [bufferStart_eq start_ptr (by omega), endPointer_eq start_ptr channel_count hptr]
  exact loop_fault _ _ _ hpos h

theorem processHeapTrace_ok (heap : List α) (start_ptr channel_count : Nat)
    (hptr : start_ptr + endOffset channel_count < 2 ^ 30)
    (h : start_ptr + endOffset channel_count ≤ heap.length) :
    processHeapTrace heap start_ptr channel_count =
      Except.ok (invertSpan heap start_ptr (endOffset channel_count),
        List.range' start_ptr (endOffset channel_count)) := by
  simp only [processHeapTrace]
  rw [bufferStart_eq start_ptr (by omega), endPointer_eq start_ptr channel_count hptr]
  have h1 := loopTrace_ok (endOffset channel_count) start_ptr heap [] h
  rw [List.nil_append] at h1
  exact h1

/-- The 32-bit end pointer at work: for `2 ^ 21` channels the offset `512 * 2 ^ 21` is `2 ^ 30`
cells, the whole address space, so `end` equals `buffer_start` and the call returns at once,
whatever the memory and the offset. -/
theorem processHeap_pointer_wrap (heap : List α) (start_ptr : Nat) :
    processHeap heap start_ptr 2097152 = Except.ok heap := by
  have h : endPointer (bufferStart start_ptr) 2097152 = bufferStart start_ptr := by
    unfold endPointer bufferStart
    rw [show endOffset 2097152 = pointerModulus by decide, Nat.add_mod_right, Nat.mod_mod]
  simp only [processHeap, h]
  rw [loop, if_neg (by omega)]

/-! The claims. -/

/-- Claim C1, evaluated on the code.  Memory: a sentinel `7` in cell 0, the addressed block of
one channel (128 samples `2`) in cells 1..128, then 384 further cells holding `4`, the first of
which is the sentinel right after the block.  The call with offset 1 and one channel overwrites
the 512 cells 1..512: the sentinel after the block and 383 more cells outside the block are
changed from `4` to `1 / 4`. -/
theorem processHeap_overruns_block :
    processHeapTrace ([7] ++ List.replicate 128 (2 : ℚ) ++ List.replicate 384 4) 1 1 =
      Except.ok ([7] ++ List.replicate 128 (1 / 2) ++ List.replicate 384 (1 / 4),
        List.range' 1 512) := by
  have h := processHeapTrace_ok ([7] ++ List.replicate 128 (2 : ℚ) ++ List.replicate 384 4) 1 1
    (by rw [endOffset_one]; omega)
    (by simp only [endOffset_one, List.length_singleton, List.length_append,
      List.length_replicate]; omega)
  have h2 := invertSpan_append [7] (List.replicate 128 (2 : ℚ) ++ List.replicate 384 4) []
  simp only [List.length_singleton, List.length_append, List.length_replicate,
    List.append_nil, List.map_append, List.map_replicate, ← List.append_assoc] at h2
  rw [h, endOffset_one]
  exact congrArg (fun l => Except.ok (l, List.range' 1 512)) h2

/-- Claim C2, evaluated on the code.  A memory of 700 samples holds 188 samples from offset
512 on, more than the `1 * 128` the precondition asks for, yet the call with one channel does
not leave a memory behind: after cells 512..699 the loop dereferences cell 700, outside the
memory. -/
theorem processHeap_precondition_too_weak :
    processHeap (List.replicate 700 (2 : ℚ)) 512 1 = Except.error 700 := by
  have h := processHeap_fault (List.replicate 700 (2 : ℚ)) 512 1
    (by rw [endOffset_one]; omega)
    (by rw [endOffset_one]; omega)
    (by simp only [endOffset_one, List.length_replicate]; omega)
  rw [h, List.length_replicate]
  rfl

/-- Claim C3, evaluated on the code.  For a channel count of at least 1 and a memory that ends
exactly `channel_count * 128` samples after the offset, the out-of-bounds branch is reached: the
loop dereferences the first cell after the region.  The bound `start_ptr + 512 * channel_count
< 2 ^ 30` says that the end pointer the code computes does not wrap around the 32-bit address
space. -/
theorem processHeap_exact_region_faults (heap : List α) (start_ptr channel_count : Nat)
    (hpos : 0 < channel_count)
    (hlen : heap.length = start_ptr + channel_count * 128)
    (hptr : start_ptr + 512 * channel_count < 2 ^ 30) :
    processHeap heap start_ptr channel_count =
      Except.error (start_ptr + channel_count * 128) := by
  have he := endOffset_eq channel_count (by omega)
  have h := processHeap_fault heap start_ptr channel_count (by omega) (by omega) (by omega)
  rw [h, hlen]
  refine congrArg Except.error ?_
  omega

/-- Witness for `processHeap_exact_region_faults`: two channels at offset 4 in a memory of
`4 + 2 * 128` samples. -/
theorem processHeap_exact_region_faults_witness :
    processHeap (List.replicate 260 (1 : ℚ)) 4 2 = Except.error (4 + 2 * 128) :=
  processHeap_exact_region_faults (List.replicate 260 (1 : ℚ)) 4 2 (by decide)
    (by simp only [List.length_replicate]) (by decide)

/-- Claim C4: with channel count zero the call makes no loop iteration (the first test of the
loop condition already leaves the loop), dereferences no cell (the log of visited cells is
empty) and returns the memory as it was, for every offset and every memory, the empty one
included. -/
theorem processHeap_zero_channels (heap : List α) (start_ptr : Nat) :
    processHeapTrace heap start_ptr 0 = Except.ok (heap, []) ∧
    processHeap heap start_ptr 0 = Except.ok heap ∧
    loopStep (endPointer (bufferStart start_ptr) 0) ⟨bufferStart start_ptr, heap⟩ =
      StepResult.exit heap ∧
    processHeapTrace ([] : List α) start_ptr 0 = Except.ok ([], []) := by
  have key : ∀ (h : List α), processHeapTrace h start_ptr 0 = Except.ok (h, []) := by
    intro h
    simp only [processHeapTrace, endPointer_zero]
    rw [loopTrace, if_neg (by omega)]
  refine ⟨key heap, ?_, ?_, key []⟩
  · simp only [processHeap, endPointer_zero]
    rw [loop, if_neg (by omega)]
  · simp only [loopStep, endPointer_zero]
    rw [if_neg (by omega)]

/-- Claim C5, evaluated on the code.  On a memory of exactly 128 samples `s` (one channel at
offset 0; `s` may be any nonzero finite sample, in any sample arithmetic) the first call already
leaves the memory: after the 128 samples it dereferences cell 128.  The pair of calls therefore
ends in the out-of-bounds branch and does not give the original memory back. -/
theorem processHeap_twice_faults (s : α) :
    processHeap (List.replicate 128 s) 0 1 = Except.error 128 ∧
    (processHeap (List.replicate 128 s) 0 1).bind (fun mid => processHeap mid 0 1) =
      Except.error 128 := by
  have h := processHeap_fault (List.replicate 128 s) 0 1
    (by rw [endOffset_one]; omega)
    (by rw [endOffset_one]; omega)
    (by simp only [endOffset_one, List.length_replicate]; omega)
  rw [List.length_replicate] at h
  have h128 : max 0 128 = 128 := rfl
  rw [h128] at h
  refine ⟨h, ?_⟩
  rw [h]
  rfl

/-- Claim C7, evaluated on the code, for samples `a, b, c, d` followed by 124 samples `e` (the
scenario has 2.0, 4.0, -0.5, 0.0 and 1.0) and in every sample arithmetic.  When the memory is
exactly these 128 samples, the call with offset 0 and one channel does not stay inside them: it
dereferences cell 128.  When 384 cells holding `f` follow the 128 samples, the call turns the
128 samples into their reciprocals and overwrites the 384 cells after them as well. -/
theorem processHeap_scenario_leaves_buffer (a b c d e f : α) :
    processHeap ([a, b, c, d] ++ List.replicate 124 e) 0 1 = Except.error 128 ∧
    processHeap ([a, b, c, d] ++ List.replicate 124 e ++ List.replicate 384 f) 0 1 =
      Except.ok ([1 / a, 1 / b, 1 / c, 1 / d] ++ List.replicate 124 (1 / e) ++
        List.replicate 384 (1 / f)) := by
  constructor
  · have h := processHeap_fault ([a, b, c, d] ++ List.replicate 124 e) 0 1
      (by rw [endOffset_one]; omega)
      (by rw [endOffset_one]; omega)
      (by simp only [endOffset_one, List.length_append, List.length_replicate,
        List.length_cons, List.length_nil]; omega)
    rw [h]
    simp only [List.length_append, List.length_replicate, List.length_cons, List.length_nil]
    rfl
  · have h := processHeap_ok
      ([a, b, c, d] ++ List.replicate 124 e ++ List.replicate 384 f) 0 1
      (by rw [endOffset_one]; omega)
      (by simp only [endOffset_one, List.length_append, List.length_replicate,
        List.length_cons, List.length_nil]; omega)
    have h2 := invertSpan_append []
      ([a, b, c, d] ++ List.replicate 124 e ++ List.replicate 384 f) []
    simp only [List.length_append, List.length_replicate, List.length_cons, List.length_nil,
      List.append_nil, List.nil_append, List.map_append, List.map_replicate, List.map_cons,
      List.map_nil] at h2
    rw [h, endOffset_one]
    exact congrArg Except.ok h2

/-- Claim C8, evaluated on the code.  On 1024 samples `2`, one call for two channels at offset 0
inverts all 1024 cells, whereas the single-channel calls at offsets 0 and 128 each process 512
cells: cells 128..511 are inverted twice and cells 640..1023 not at all. -/
theorem processHeap_two_channels_not_split :
    processHeap (List.replicate 1024 (2 : ℚ)) 0 2 = Except.ok (List.replicate 1024 (1 / 2)) ∧
    (processHeap (List.replicate 1024 (2 : ℚ)) 0 1).bind (fun h => processHeap h 128 1) =
      Except.ok (List.replicate 128 (1 / 2) ++ List.replicate 384 2 ++
        List.replicate 128 (1 / 2) ++ List.replicate 384 2) := by
  have hinv : (1 : ℚ) / (1 / 2) = 2 := by norm_num
  constructor
  · rw [processHeap_ok _ 0 2 (by rw [endOffset_two]; omega)
      (by simp only [endOffset_two, List.length_replicate]; omega), endOffset_two]
    refine congrArg Except.ok (List.ext_getElem? ?_)
    intro i
    simp only [getElem?_invertSpan, List.getElem?_replicate]
    split_ifs <;> first | rfl | omega
  · rw [processHeap_ok _ 0 1 (by rw [endOffset_one]; omega)
      (by simp only [endOffset_one, List.length_replicate]; omega)]
    rw [Except.bind, processHeap_ok _ 128 1 (by rw [endOffset_one]; omega) (by
      simp only [length_invertSpan, endOffset_one, List.length_replicate]; omega), endOffset_one]
    refine congrArg Except.ok (List.ext_getElem? ?_)
    intro i
    simp only [getElem?_invertSpan, List.getElem?_append, List.getElem?_replicate,
      List.length_append, List.length_replicate]
    split_ifs <;> first | rfl | omega | exact congrArg some hinv

/-- Claim C9 as stated fails for a channel count of `2 ^ 23 = 8388608`: the unsigned product
`512 * 8388608` wraps to 0, so the loop visits no cell at all and leaves the memory as it was,
whereas the claim announces `512 * 8388608` visited cells. -/
theorem processHeapTrace_wraps :
    processHeapTrace ([2, 4] : List ℚ) 0 8388608 = Except.ok ([2, 4], []) ∧
    ([] : List Nat).length ≠ 512 * 8388608 := by
  constructor
  · have h0 : bufferStart 0 = 0 := bufferStart_eq 0 (by omega)
    have h1 : endPointer 0 8388608 = 0 := by
      rw [endPointer_eq 0 8388608 (by rw [endOffset_wrap]; omega), endOffset_wrap]
    simp only [processHeapTrace, h0, h1]
    rw [loopTrace, if_neg (by omega)]
  · decide

/-- Claim C9 (amended): `channelSize` is `128 * 4 = 512`, and on a memory that contains them
(a linear memory of the 32-bit target, fewer than `2 ^ 30` cells) the loop visits exactly the
cells `start, start + 1, ...`, each once and in increasing order,
`(512 * channel_count) mod 2 ^ 32` of them, every one replaced by its reciprocal.  For a channel
count below `2 ^ 23` this number is `512 * channel_count`, four times `channel_count * 128`. -/
theorem processHeapTrace_visits (heap : List α) (start_ptr channel_count : Nat)
    (hlen : start_ptr + (512 * channel_count) % 2 ^ 32 ≤ heap.length)
    (hmem : heap.length < 2 ^ 30) :
    channelSize = 128 * 4 ∧ channelSize = 512 ∧
    processHeapTrace heap start_ptr channel_count =
      Except.ok (invertSpan heap start_ptr ((512 * channel_count) % 2 ^ 32),
        List.range' start_ptr ((512 * channel_count) % 2 ^ 32)) ∧
    (List.range' start_ptr ((512 * channel_count) % 2 ^ 32)).length =
      (512 * channel_count) % 2 ^ 32 ∧
    (List.range' start_ptr ((512 * channel_count) % 2 ^ 32)).Pairwise (fun i j => i < j) ∧
    (channel_count < 2 ^ 23 →
      (512 * channel_count) % 2 ^ 32 = 512 * channel_count ∧
      (512 * channel_count) % 2 ^ 32 = 4 * (channel_count * 128)) := by
  have he : endOffset channel_count = (512 * channel_count) % 2 ^ 32 := rfl
  refine ⟨rfl, rfl, ?_, List.length_range' _ _ _, List.pairwise_lt_range' _ _, ?_⟩
  · rw [← he]
    exact processHeapTrace_ok heap start_ptr channel_count (by rw [he]; omega)
      (by rw [he]; exact hlen)
  · intro hcc
    omega

/-- Witness for `processHeapTrace_visits`: one channel at offset 1 in a memory of 513 samples. -/
theorem processHeapTrace_visits_witness :
    processHeapTrace (List.replicate 513 (2 : ℚ)) 1 1 =
      Except.ok (invertSpan (List.replicate 513 (2 : ℚ)) 1 ((512 * 1) % 2 ^ 32),
        List.range' 1 ((512 * 1) % 2 ^ 32)) :=
  (processHeapTrace_visits (List.replicate 513 (2 : ℚ)) 1 1
    (by simp only [List.length_replicate]; decide)
    (by simp only [List.length_replicate]; decide)).2.2.1

/-- Claim C10: the loop terminates for every memory, offset and channel count.  Its end bound
is a parameter of the step function, so no iteration changes it; an iteration that continues
was entered with `index` below the bound, advances `index` by exactly one cell and shortens the
distance to the bound; the loop is left through its condition only at distance zero; and, whatever
the samples are, `endOffset channel_count + 1` tests of the condition (a number below
`2 ^ 32 + 1` fixed by the channel count alone) are enough for the run to end with the result of
`processHeap`.  On a memory (fewer than `2 ^ 30` cells) that contains the whole span no smaller
number of tests is enough. -/
theorem processHeap_terminates (heap : List α) (start_ptr channel_count : Nat) :
    loopFuel (endPointer (bufferStart start_ptr) channel_count) (endOffset channel_count + 1)
        ⟨bufferStart start_ptr, heap⟩ = some (processHeap heap start_ptr channel_count) ∧
    (∀ fuel, endOffset channel_count < fuel →
      loopFuel (endPointer (bufferStart start_ptr) channel_count) fuel
        ⟨bufferStart start_ptr, heap⟩ = some (processHeap heap start_ptr channel_count)) ∧
    endOffset channel_count < 2 ^ 32 ∧
    (∀ (s s' : LoopState α),
      loopStep (endPointer (bufferStart start_ptr) channel_count) s = StepResult.next s' →
        s.index < endPointer (bufferStart start_ptr) channel_count ∧
        s'.index = s.index + 1 ∧
        endPointer (bufferStart start_ptr) channel_count - s'.index + 1 =
          endPointer (bufferStart start_ptr) channel_count - s.index) ∧
    (∀ (s : LoopState α) (out : List α),
      loopStep (endPointer (bufferStart start_ptr) channel_count) s = StepResult.exit out →
        endPointer (bufferStart start_ptr) channel_count - s.index = 0 ∧ out = s.heap) ∧
    (start_ptr + endOffset channel_count ≤ heap.length → heap.length < 2 ^ 30 →
      endPointer (bufferStart start_ptr) channel_count = start_ptr + endOffset channel_count ∧
      ∀ fuel, fuel ≤ endOffset channel_count →
        loopFuel (endPointer (bufferStart start_ptr) channel_count) fuel
          ⟨bufferStart start_ptr, heap⟩ = none) := by
  have hfuel : ∀ fuel, endOffset channel_count < fuel →
      loopFuel (endPointer (bufferStart start_ptr) channel_count) fuel
        ⟨bufferStart start_ptr, heap⟩ = some (processHeap heap start_ptr channel_count) := by
    intro fuel hf
    have hle := endPointer_sub_le (bufferStart start_ptr) channel_count
    exact loopFuel_eq_loop _ _ fuel ⟨bufferStart start_ptr, heap⟩ rfl
      (by simp only []; omega)
  refine ⟨hfuel _ (by omega), hfuel, endOffset_lt channel_count, ?_, ?_, ?_⟩
  · intro s s' h
    obtain ⟨h1, h2, _⟩ := loopStep_next _ s s' h
    exact ⟨h1, h2, by omega⟩
  · intro s out h
    obtain ⟨h1, h2⟩ := loopStep_exit _ s out h
    exact ⟨by omega, h2⟩
  · intro hlen hmem
    have hb := bufferStart_eq start_ptr (by omega)
    have he := endPointer_eq start_ptr channel_count (by omega)
    rw [hb, he]
    refine ⟨rfl, ?_⟩
    intro fuel hf
    exact loopFuel_short fuel _ ⟨start_ptr, heap⟩ (by simp only []; omega) hlen

end InvertSignal
